import Mathlib

set_option maxHeartbeats 1000000

/-!
Formal model of the include-driven projection system and of the API client
of the musicbrainz-ts library.

The TypeScript source computes projected document shapes at the type level
(src/api_includes.ts).  Types are modelled here as a first-order syntax
`Ty`: entity object types are spines of named fields (`objCons`, `objNil`),
each field either always present or marked as a sub-query together with its
required include parameters (the TS wrapper `$SubQuery<Data, RequiredInclude>`,
whose union of string literals is modelled as a list of strings).  Requested
include sets (TS unions of include parameter literals) are lists of strings;
`RequiredInclude extends Include` for a literal means list membership, and a
distributive conditional over the union of required includes means `List.any`.
-/

namespace MB

/-- Syntax of the value and entity types occurring in the API type
definitions: scalars, the `never` type, the empty tuple type (written `[]`
in the source, which is `never[]` for item inference), arrays, and entity
object types given as spines of named fields.  A field carries its name, an
optionality flag (the TS `?:` marker, i.e. `undefined` is part of the
property type) and, when it is a sub-query field, the list of its required
include parameters. -/
inductive Ty where
  | prim : Ty
  | nev : Ty
  | emptyArr : Ty
  | arrOf : Ty → Ty
  | objNil : Ty
  | objCons (name : String) (opt : Bool) (sub : Option (List String))
      (data : Ty) (rest : Ty) : Ty
deriving DecidableEq

/-- Whether a type is an object (entity) type, i.e. a field spine. -/
def isObjB : Ty → Bool
  | .objNil => true
  | .objCons _ _ _ _ _ => true
  | _ => false

/-- The field names of an entity type, in declaration order. -/
def keysOf : Ty → List String
  | .objCons n _ _ _ rest => n :: keysOf rest
  | _ => []

/-- The fields of an entity type as a list of tuples. -/
def fieldsOf : Ty → List (String × Bool × Option (List String) × Ty)
  | .objCons n o s d rest => (n, o, s, d) :: fieldsOf rest
  | _ => []

/-- TS `AvailableKeys<Entity, Include>` (src/api_includes.ts, lines 36-53):
the keys of all properties which are included in the entity for the given
include parameters.  The key of a sub-query property survives iff one of
its required include parameters is requested (the conditional
`RequiredInclude extends Include ? Key : never` distributes over the union
of required includes); the key of a regular property always survives. -/
def availableKeys : Ty → List String → List String
  | .objCons n _ (some incs) _ rest, s =>
      if incs.any (fun i => s.contains i) then n :: availableKeys rest s
      else availableKeys rest s
  | .objCons n _ none _ rest, s => n :: availableKeys rest s
  | _, _ => []

/-- TS `Pick<T, Keys>`: keep exactly the properties whose key occurs in the
given key list. -/
def pick : Ty → List String → Ty
  | .objCons n o s d rest, keys =>
      if keys.contains n then .objCons n o s d (pick rest keys)
      else pick rest keys
  | t, _ => t

mutual

/-- TS `WithIncludes<Entity, Include>` (src/api_includes.ts, lines 24-30):
the entity with additional information for the given include parameters,
defined as `Pick<UnwrapProperties<Entity, Include>, AvailableKeys<Entity,
Include>>`. -/
def withIncludes (t : Ty) (s : List String) : Ty :=
  pick (unwrapProperties t s) (availableKeys t s)
termination_by (sizeOf t, 1)

/-- TS `UnwrapProperties<Entity, Include>` (src/api_includes.ts, lines
63-76): processes all properties (preserving their keys), unwrapping the
data of sub-queries whose required include parameter is requested and
replacing the remaining sub-queries with `never`; regular properties are
unwrapped to find nested sub-queries. -/
def unwrapProperties (t : Ty) (s : List String) : Ty :=
  match t with
  | .objCons n o (some incs) d rest =>
      .objCons n o none
        (if incs.any (fun i => s.contains i) then unwrapData d s else .nev)
        (unwrapProperties rest s)
  | .objCons n o none d rest =>
      .objCons n o none (unwrapData d s) (unwrapProperties rest s)
  | t => t
termination_by (sizeOf t, 0)

/-- TS `UnwrapData<Data, Include>` (src/api_includes.ts, lines 79-90):
applies the sub-query unwrapping to all objects of the given data.  Empty
arrays are skipped, arrays of scalars are left alone, arrays of objects are
unwrapped item-wise via `WithIncludes`, objects are unwrapped via
`WithIncludes`, and scalar data is left alone. -/
def unwrapData (t : Ty) (s : List String) : Ty :=
  match t with
  | .emptyArr => .emptyArr
  | .arrOf .prim => .arrOf .prim
  | .arrOf .nev => .arrOf .nev
  | .arrOf item => .arrOf (withIncludes item s)
  | .prim => .prim
  | .nev => .nev
  | t => withIncludes t s
termination_by (sizeOf t, 2)

end

mutual

/-- TS `CollectIncludes<Entity>` (src/api_includes.ts, lines 98-110): all
include parameter values which affect the presence of sub-query properties
of the given entity and its children.  Each sub-query field contributes its
required includes together with the includes collected from its data;
regular fields contribute the includes collected from their data.  On
non-entity types the TS definition yields the empty union (their keys are
not all strings, so `StringKeyOf` is `never`). -/
def collectIncludes (t : Ty) : Finset String :=
  match t with
  | .objCons _ _ (some incs) d rest =>
      (incs.toFinset ∪ collectSubQueryIncludes d) ∪ collectIncludes rest
  | .objCons _ _ none d rest =>
      collectSubQueryIncludes d ∪ collectIncludes rest
  | _ => ∅
termination_by (sizeOf t, 0)

/-- TS `CollectSubQueryIncludes<Data>` (src/api_includes.ts, lines
115-120): collects sub-query include parameters from all objects of the
given data: for an array of objects, the includes of its item type; for an
object, its includes; scalar values (and arrays of scalars or of arrays,
whose `CollectIncludes` is empty) contribute nothing. -/
def collectSubQueryIncludes (t : Ty) : Finset String :=
  match t with
  | .arrOf .objNil => collectIncludes .objNil
  | .arrOf (.objCons n o s d rest) => collectIncludes (.objCons n o s d rest)
  | .arrOf _ => ∅
  | .objNil => collectIncludes .objNil
  | .objCons n o s d rest => collectIncludes (.objCons n o s d rest)
  | _ => ∅
termination_by (sizeOf t, 1)

end

/-- Well-formedness of schema types, following the data model: field data
is a scalar, an empty array, an entity, an array of entities or an array of
scalars; the `never` type does not occur as data on its own; field names
are unique within one entity object. -/
def wf : Ty → Bool
  | .prim => true
  | .nev => false
  | .emptyArr => true
  | .arrOf .prim => true
  | .arrOf .objNil => true
  | .arrOf (.objCons n o s d rest) => wf (.objCons n o s d rest)
  | .arrOf _ => false
  | .objNil => true
  | .objCons n _ _ d rest =>
      wf d && wf rest && isObjB rest && !((keysOf rest).contains n)

/-- The entity schema sitting inside a piece of field data: the data
itself when it is an entity, its item type when it is an array of
entities, nothing otherwise. -/
def entityOf : Ty → Option Ty
  | .arrOf e => if isObjB e then some e else none
  | e => if isObjB e then some e else none

/-- Spec-side reachability of sub-query fields: `SubReach t incs` holds iff
the schema `t` has a sub-query field with required includes `incs`, either
directly, or through the payload data of one of its fields (sub-query
payloads as well as nested entity types inside always-present fields). -/
inductive SubReach : Ty → List String → Prop where
  | here (n : String) (o : Bool) (incs : List String) (d rest : Ty) :
      SubReach (.objCons n o (some incs) d rest) incs
  | there (n : String) (o : Bool) (s : Option (List String)) (d : Ty)
      {rest : Ty} {incs : List String} :
      SubReach rest incs → SubReach (.objCons n o s d rest) incs
  | into (n : String) (o : Bool) (s : Option (List String)) (rest : Ty)
      {d e : Ty} {incs : List String} :
      entityOf d = some e → SubReach e incs →
      SubReach (.objCons n o s d rest) incs

/-- Spec-side projection with the empty requested include set: keep exactly
the always-present fields and drop every sub-query field, at every nesting
depth. -/
def stripAll : Ty → Ty
  | .objCons _ _ (some _) _ rest => stripAll rest
  | .objCons n o none d rest => .objCons n o none (stripAll d) (stripAll rest)
  | .arrOf e => .arrOf (stripAll e)
  | t => t

/-- The field paths present in a type: each field contributes its own
singleton path plus its name prepended to every path inside its data; array
items contribute their paths directly. -/
def pathsOf : Ty → List (List String)
  | .objCons n _ _ d rest =>
      [n] :: ((pathsOf d).map (fun p => n :: p) ++ pathsOf rest)
  | .arrOf e => pathsOf e
  | _ => []

/-- Structurally recursive form of the projection, used for induction.  On
well-formed entity schemas it agrees with `withIncludes` (theorem
`withIncludes_eq_proj` below). -/
def proj : Ty → List String → Ty
  | .objCons n o (some incs) d rest, s =>
      if incs.any (fun i => s.contains i) then
        .objCons n o none (proj d s) (proj rest s)
      else proj rest s
  | .objCons n o none d rest, s => .objCons n o none (proj d s) (proj rest s)
  | .arrOf e, s => .arrOf (proj e s)
  | t, _ => t

/-- The names of the always-present fields of an entity, in order. -/
def alwaysKeysOf : Ty → List String
  | .objCons n _ none _ rest => n :: alwaysKeysOf rest
  | .objCons _ _ (some _) _ rest => alwaysKeysOf rest
  | _ => []

/-- A small schema in the shape of the release entity of the source: an
always-present title and an artist-credit sub-query gated by the union of
two include parameters. -/
def releaseDemo : Ty :=
  .objCons "title" false none .prim
    (.objCons "artist-credit" false (some ["artists", "artist-credits"])
      (.arrOf (.objCons "name" false none .prim .objNil)) .objNil)

/-!
Model of the API client (src/client.ts and src/utils/entity.ts).

Instants are integers (milliseconds since the Unix epoch, the unit of
`Date.now`).  Response headers are `Option String` (`Headers.get` returns
null for a missing header); JS truthiness of such a value means "present
and non-empty".
-/

/-- JSON values, as decoded from a response body. -/
inductive Json where
  | null : Json
  | bool (b : Bool) : Json
  | num (n : Int) : Json
  | str (s : String) : Json
  | arr (items : List Json) : Json
  | obj (fields : List (String × Json)) : Json

/-- Modelled from the spec: the type guard `isError` of the module
src/error.ts, which is not part of the given sources.  A decoded response
body denotes a server-reported failure iff it is an object containing a
string `error` field. -/
def isError (data : Json) : Bool :=
  match data with
  | .obj fields =>
      match List.lookup "error" fields with
      | some (.str _) => true
      | _ => false
  | _ => false

/-- The `error` message carried by an error-shaped body. -/
def errorMessage (data : Json) : String :=
  match data with
  | .obj fields =>
      match List.lookup "error" fields with
      | some (.str m) => m
      | _ => ""
  | _ => ""

/-- Modelled from the spec: the `ApiError` of the module src/error.ts,
which is not part of the given sources.  It carries the server message and
the HTTP status code. -/
structure ApiError where
  message : String
  status : Nat
deriving DecidableEq

/-- Modelled from the spec: constructing an `ApiError` defaults the status
to 500 when the transport layer provides none. -/
def mkApiError (message : String) (status : Option Nat) : ApiError :=
  { message := message, status := status.getD 500 }

/-- The response classification of `MusicBrainzClient.get` (src/client.ts,
lines 202-208): when the decoded body matches the error shape, raise an
`ApiError` with the server message and the response status; otherwise
return the body as entity data. -/
def getResult (body : Json) (status : Option Nat) : Except ApiError Json :=
  if isError body then .error (mkApiError (errorMessage body) status)
  else .ok body

/-- Hexadecimal digit (either case). -/
def isHexDigitChar (c : Char) : Bool :=
  c.isDigit || (decide (97 ≤ c.toNat) && decide (c.toNat ≤ 102)) ||
    (decide (65 ≤ c.toNat) && decide (c.toNat ≤ 70))

/-- Split a character list on a separator character. -/
def splitOnChar (sep : Char) : List Char → List (List Char)
  | [] => [[]]
  | c :: cs =>
      let r := splitOnChar sep cs
      if c = sep then [] :: r
      else
        match r with
        | g :: gs => (c :: g) :: gs
        | [] => [[c]]

/-- Modelled from the spec: the UUID validation performed by the external
dependency used in `assertMbid` (src/utils/entity.ts).  Entity ids must be
36-character UUID-shaped strings of 8-4-4-4-12 hexadecimal groups. -/
def validate (s : String) : Bool :=
  let groups := splitOnChar '-' s.data
  (groups.map List.length == [8, 4, 4, 4, 12]) &&
    groups.all (fun g => g.all isHexDigitChar) &&
    (s.length == 36)

/-- `assertMbid` (src/utils/entity.ts, lines 11-13): throws unless the
input is a valid MBID. -/
def assertMbid (input : String) : Except String Unit :=
  if validate input then .ok () else .error (input ++ " is not a valid MBID")

/-- `entityPlural` (src/utils/entity.ts, lines 16-18): appends a plural "s"
to all entity types except "series". -/
def entityPlural (t : String) : String :=
  if t = "series" then t else t ++ "s"

/-- `entityTypes` (src/data/entity.ts): the core entity types. -/
def entityTypes : List String :=
  ["area", "artist", "collection", "event", "genre", "instrument", "label",
   "place", "recording", "release", "release-group", "series", "url", "work"]

/-- `CollectableEntityType` (src/data/entity.ts): entity types which can be
collected, excluding collection, genre and url. -/
def collectableEntityTypes : List String :=
  entityTypes.filter
    (fun t => !(t == "collection" || t == "genre" || t == "url"))

/-- JS `Array.prototype.join` with a separator. -/
def joinArr (sep : String) : List String → String
  | [] => ""
  | [x] => x
  | x :: xs => x ++ sep ++ joinArr sep xs

/-- A prepared GET request: endpoint path and query parameters, as built by
the lookup methods before dispatch. -/
structure RequestSpec where
  endpoint : String
  inc : Option String
  status : Option String
  typ : Option String
deriving DecidableEq

/-- The synchronous preparation of `MusicBrainzClient.lookup`
(src/client.ts, lines 137-151): the MBID is validated first, before any
request exists; only for a valid MBID is the GET request for endpoint
`entityType/mbid` prepared, with include parameters joined by "+" and the
status and type filters joined by "|". -/
def lookup (entityType : String) (mbid : String) (inc : Option (List String))
    (status : Option (List String)) (typ : Option (List String)) :
    Except String RequestSpec :=
  match assertMbid mbid with
  | .error e => .error e
  | .ok _ =>
      .ok
        { endpoint := joinArr "/" [entityType, mbid]
          inc := inc.map (joinArr "+")
          status := status.map (joinArr "|")
          typ := typ.map (joinArr "|") }

/-- The synchronous preparation of
`MusicBrainzClient.lookupCollectionContents` (src/client.ts, lines
153-160): validate the MBID, then GET `collection/mbid/plural`. -/
def lookupCollectionContents (mbid : String) (contentType : String) :
    Except String RequestSpec :=
  match assertMbid mbid with
  | .error e => .error e
  | .ok _ =>
      .ok
        { endpoint := joinArr "/" ["collection", mbid, entityPlural contentType]
          inc := none
          status := none
          typ := none }

/-- The numeric value of a digit list. -/
def digitsVal (ds : List Char) : Nat :=
  ds.foldl (fun n c => 10 * n + (c.toNat - 48)) 0

/-- JS `parseInt` on a decimal string: the longest digit prefix after
optional whitespace and an optional sign; `none` models `NaN`. -/
def parseIntJS (str : String) : Option Int :=
  let cs := str.data.dropWhile (fun c => c = ' ')
  let signed : Int × List Char :=
    match cs with
    | '-' :: rest => (-1, rest)
    | '+' :: rest => (1, rest)
    | _ => (1, cs)
  let ds := signed.2.takeWhile Char.isDigit
  if ds.isEmpty then none else some (signed.1 * (digitsVal ds : Int))

/-- The client state relevant to dispatch (src/client.ts, lines 244-249):
the private queued-requests counter, the instant at which the shared
rate-limit delay resolves, and the configured maximum queue size (`none`
models the default `Infinity`). -/
structure ClientState where
  queuedRequests : Nat
  readyAt : Int
  maxQueueSize : Option Nat
deriving DecidableEq

/-- The admission check of `MusicBrainzClient.#request` (src/client.ts,
line 211): `#queuedRequests >= #maxQueueSize`, always false for the
default `Infinity`. -/
def queueFull (st : ClientState) : Bool :=
  match st.maxQueueSize with
  | none => false
  | some m => decide (m ≤ st.queuedRequests)

/-- The message of the `RateLimitError` thrown on admission failure
(src/client.ts, lines 212-214). -/
def rateLimitErrorMessage : String :=
  "Too many requests queued, please wait and try again"

/-- The rate-limit bookkeeping of `#request` after a response arrived
(src/client.ts, lines 223-239), performed at instant `now`: when the
remaining-units header is present and non-empty and parses to 0, and the
reset header is present, non-empty and parses to an instant strictly in
the future, the shared delay is replaced by one resolving at that instant;
when the remaining-units header is absent or empty, the delay is replaced
by a one-second fallback; in every other case the delay is left alone. -/
def updateRateLimit (now readyAt : Int) (remaining reset : Option String) :
    Int :=
  match remaining with
  | some r =>
      if r ≠ "" then
        match parseIntJS r with
        | some v =>
            if v = 0 then
              match reset with
              | some t =>
                  if t ≠ "" then
                    match parseIntJS t with
                    | some tv =>
                        if tv * 1000 - now > 0 then now + (tv * 1000 - now)
                        else readyAt
                    | none => readyAt
                  else readyAt
              | none => readyAt
            else readyAt
        | none => readyAt
      else now + 1000
  | none => now + 1000

/-- Observable events of one pass through `#request`. -/
inductive ReqEvent where
  | rejected (msg : String) : ReqEvent
  | waited : ReqEvent
  | fetchStarted : ReqEvent
  | fetchFailed : ReqEvent
  | fetchReturned : ReqEvent
  | decremented : ReqEvent
deriving DecidableEq

/-- Outcome of the underlying `fetch`: a response together with its two
rate-limit headers, or a rejection (network failure). -/
inductive FetchOutcome where
  | ok (remaining reset : Option String) : FetchOutcome
  | fail : FetchOutcome

/-- One request through `MusicBrainzClient.#request` (src/client.ts, lines
210-242), as the sequence of its observable events together with the final
client state.  The queue check runs first and synchronously: a rejected
caller produces no waiting and no network activity and leaves the state
unchanged.  An admitted caller increments the queued counter, awaits the
shared delay, performs the fetch, and only once the fetch has returned
decrements the counter and processes the rate-limit headers; the source has
no try/finally, so a rejected fetch leaves the counter incremented. -/
def requestStep (st : ClientState) (now : Int) (outcome : FetchOutcome) :
    List ReqEvent × ClientState :=
  if queueFull st then ([.rejected rateLimitErrorMessage], st)
  else
    let st1 := { st with queuedRequests := st.queuedRequests + 1 }
    match outcome with
    | .fail => ([.waited, .fetchStarted, .fetchFailed], st1)
    | .ok remaining reset =>
        ([.waited, .fetchStarted, .fetchReturned, .decremented],
          { st1 with
              queuedRequests := st1.queuedRequests - 1
              readyAt := updateRateLimit now st1.readyAt remaining reset })

/-- The instant at which a request dispatched at `requestedAt` may begin
its fetch: not before the shared delay has resolved. -/
def beginTime (requestedAt readyAt : Int) : Int :=
  max requestedAt readyAt

/-- Unfolding equation of `withIncludes`. -/
theorem withIncludes_def (t : Ty) (s : List String) :
    withIncludes t s = pick (unwrapProperties t s) (availableKeys t s) := by
  rw [withIncludes]

/-- `UnwrapProperties` preserves the keys of an entity. -/
theorem keysOf_unwrapProperties (t : Ty) (s : List String) :
    keysOf (unwrapProperties t s) = keysOf t := by
  induction t with
  | objCons n o sub d rest ihd ihrest =>
      cases sub with
      | some incs => simp [unwrapProperties, keysOf, ihrest]
      | none => simp [unwrapProperties, keysOf, ihrest]
  | prim => simp [unwrapProperties]
  | nev => simp [unwrapProperties]
  | emptyArr => simp [unwrapProperties]
  | arrOf e _ => simp [unwrapProperties]
  | objNil => simp [unwrapProperties]

/-- Every available key is a key of the entity. -/
theorem mem_keysOf_of_mem_availableKeys {k : String} :
    ∀ (t : Ty) (s : List String), k ∈ availableKeys t s → k ∈ keysOf t := by
  intro t
  induction t with
  | objCons n o sub d rest ihd ihrest =>
      intro s h
      cases sub with
      | some incs =>
          simp only [availableKeys] at h
          by_cases hc : incs.any (fun i => s.contains i) = true
          · simp only [hc, if_true, List.mem_cons] at h
            rcases h with h | h
            · simp [keysOf, h]
            · simp [keysOf, ihrest s h]
          · simp only [hc, if_false] at h
            simp [keysOf, ihrest s h]
      | none =>
          simp only [availableKeys, List.mem_cons] at h
          rcases h with h | h
          · simp [keysOf, h]
          · simp [keysOf, ihrest s h]
  | prim => intro s h; simp [availableKeys] at h
  | nev => intro s h; simp [availableKeys] at h
  | emptyArr => intro s h; simp [availableKeys] at h
  | arrOf e _ => intro s h; simp [availableKeys] at h
  | objNil => intro s h; simp [availableKeys] at h

/-- Adding a key which does not occur in the entity to the picked key list
does not change the result of `pick`. -/
theorem pick_cons_of_not_mem (a : String) :
    ∀ (t : Ty) (ks : List String), a ∉ keysOf t →
      pick t (a :: ks) = pick t ks := by
  intro t
  induction t with
  | objCons n o sub d rest ihd ihrest =>
      intro ks ha
      simp only [keysOf, List.mem_cons, not_or] at ha
      have hne : (n == a) = false := by
        simp [Ne.symm ha.1]
      simp only [pick, List.contains_cons, hne, Bool.false_or]
      by_cases hk : ks.contains n = true
      · simp [hk, ihrest ks ha.2]
      · simp [hk, ihrest ks ha.2]
  | prim => intro ks _; simp [pick]
  | nev => intro ks _; simp [pick]
  | emptyArr => intro ks _; simp [pick]
  | arrOf e _ => intro ks _; simp [pick]
  | objNil => intro ks _; simp [pick]

/-- Membership form of `List.contains`. -/
theorem contains_iff_mem (l : List String) (x : String) :
    l.contains x = true ↔ x ∈ l :=
  List.elem_iff

/-- On well-formed entity schemas the type-level projection of the source,
`WithIncludes = Pick over UnwrapProperties at AvailableKeys`, agrees with
the structurally recursive projection `proj`; likewise `UnwrapData` agrees
with `proj` on well-formed field data. -/
theorem withIncludes_eq_proj :
    ∀ (t : Ty) (s : List String), wf t = true →
      (isObjB t = true → withIncludes t s = proj t s) ∧
        unwrapData t s = proj t s := by
  intro t
  induction t with
  | prim =>
      intro s _
      exact ⟨fun h => by simp [isObjB] at h, by simp [unwrapData, proj]⟩
  | nev => intro s hw; simp [wf] at hw
  | emptyArr =>
      intro s _
      exact ⟨fun h => by simp [isObjB] at h, by simp [unwrapData, proj]⟩
  | objNil =>
      intro s _
      constructor
      · intro _
        simp [withIncludes_def, unwrapProperties, availableKeys, pick, proj]
      · simp [unwrapData, withIncludes_def, unwrapProperties, availableKeys,
          pick, proj]
  | arrOf e ihe =>
      intro s hw
      refine ⟨fun h => by simp [isObjB] at h, ?_⟩
      cases e with
      | prim => simp [unwrapData, proj]
      | nev => simp [wf] at hw
      | emptyArr => simp [wf] at hw
      | arrOf e2 => simp [wf] at hw
      | objNil =>
          simp [unwrapData, withIncludes_def, unwrapProperties, availableKeys,
            pick, proj]
      | objCons n o sub d rest =>
          have hwe : wf (.objCons n o sub d rest) = true := by
            simpa [wf] using hw
          have he := (ihe s hwe).1 (by simp [isObjB])
          simp [unwrapData, proj, he]
  | objCons n o sub d rest ihd ihrest =>
      intro s hw
      have hw' : (wf d = true ∧ wf rest = true ∧ isObjB rest = true) ∧
          (keysOf rest).contains n = false := by
        simpa [wf, Bool.and_eq_true, Bool.not_eq_true',
          and_assoc] using hw
      obtain ⟨⟨hwd, hwrest, hobj⟩, hnot⟩ := hw'
      have hnmem : n ∉ keysOf rest := by
        intro hmem
        rw [(contains_iff_mem _ _).mpr hmem] at hnot
        exact Bool.true_eq_false.mp hnot
      have hrest1 : withIncludes rest s = proj rest s := (ihrest s hwrest).1 hobj
      have hdata : unwrapData d s = proj d s := (ihd s hwd).2
      have hnav : (availableKeys rest s).contains n = false := by
        by_contra hc
        exact hnmem
          (mem_keysOf_of_mem_availableKeys rest s
            ((contains_iff_mem _ _).mp (Bool.of_not_eq_false hc)))
      have hnotn : ¬((availableKeys rest s).contains n = true) := by
        intro h
        rw [hnav] at h
        exact Bool.false_ne_true h
      have hmain :
          withIncludes (.objCons n o sub d rest) s =
            proj (.objCons n o sub d rest) s := by
        cases sub with
        | some incs =>
            by_cases hc : incs.any (fun i => s.contains i) = true
            · rw [withIncludes_def]
              simp only [unwrapProperties, availableKeys]
              rw [if_pos hc, if_pos hc]
              simp only [pick, List.contains_cons, beq_self_eq_true,
                Bool.true_or, if_true]
              rw [pick_cons_of_not_mem n (unwrapProperties rest s)
                (availableKeys rest s)
                (by rw [keysOf_unwrapProperties]; exact hnmem)]
              rw [← withIncludes_def]
              simp only [proj]
              rw [if_pos hc, hdata, hrest1]
            · rw [withIncludes_def]
              simp only [unwrapProperties, availableKeys]
              rw [if_neg hc, if_neg hc]
              simp only [pick]
              rw [if_neg hnotn]
              rw [← withIncludes_def]
              simp only [proj]
              rw [if_neg hc, hrest1]
        | none =>
            rw [withIncludes_def]
            simp only [unwrapProperties, availableKeys]
            simp only [pick, List.contains_cons, beq_self_eq_true,
              Bool.true_or, if_true]
            rw [pick_cons_of_not_mem n (unwrapProperties rest s)
              (availableKeys rest s)
              (by rw [keysOf_unwrapProperties]; exact hnmem)]
            rw [← withIncludes_def]
            simp only [proj]
            rw [hdata, hrest1]
      exact ⟨fun _ => hmain, by simp only [unwrapData]; exact hmain⟩

/-- No include parameter is satisfied by the empty requested set. -/
theorem any_contains_nil (incs : List String) :
    (incs.any fun i => ([] : List String).contains i) = false := by
  induction incs with
  | nil => rfl
  | cons i is ih => simp [List.any, ih]

/-- With the empty requested include set, exactly the always-present keys
are available. -/
theorem availableKeys_nil (t : Ty) : availableKeys t [] = alwaysKeysOf t := by
  induction t with
  | objCons n o sub d rest ihd ihrest =>
      cases sub with
      | some incs =>
          simp only [availableKeys, alwaysKeysOf, any_contains_nil]
          simpa using ihrest
      | none => simp [availableKeys, alwaysKeysOf, ihrest]
  | prim => rfl
  | nev => rfl
  | emptyArr => rfl
  | arrOf e _ => rfl
  | objNil => rfl

/-- The structural projection with the empty include set strips every
sub-query field at every depth. -/
theorem proj_nil_eq_stripAll : ∀ t : Ty, proj t [] = stripAll t := by
  intro t
  induction t with
  | objCons n o sub d rest ihd ihrest =>
      cases sub with
      | some incs =>
          have h : ¬((incs.any fun i => ([] : List String).contains i) = true) := by
            rw [any_contains_nil]
            exact Bool.false_ne_true
          simp only [proj, stripAll]
          rw [if_neg h, ihrest]
      | none => simp [proj, stripAll, ihd, ihrest]
  | arrOf e ih => simp [proj, stripAll, ih]
  | prim => rfl
  | nev => rfl
  | emptyArr => rfl
  | objNil => rfl

/-- Enlarging the requested include set can only make more of the required
include conditions fire. -/
theorem any_contains_mono {s1 s2 : List String}
    (hsub : ∀ x, s1.contains x = true → s2.contains x = true)
    (incs : List String) (h : (incs.any fun i => s1.contains i) = true) :
    (incs.any fun i => s2.contains i) = true := by
  rw [List.any_eq_true] at h ⊢
  obtain ⟨i, hi, hci⟩ := h
  exact ⟨i, hi, hsub i hci⟩

/-- Enlarging the requested include set can only enlarge the available
keys. -/
theorem availableKeys_mono {s1 s2 : List String}
    (hsub : ∀ x, s1.contains x = true → s2.contains x = true) :
    ∀ (t : Ty) {k : String}, k ∈ availableKeys t s1 → k ∈ availableKeys t s2 := by
  intro t
  induction t with
  | objCons n o sub d rest ihd ihrest =>
      intro k hk
      cases sub with
      | some incs =>
          simp only [availableKeys] at hk ⊢
          by_cases hc1 : (incs.any fun i => s1.contains i) = true
          · have hc2 := any_contains_mono hsub incs hc1
            rw [if_pos hc1] at hk
            rw [if_pos hc2]
            rcases List.mem_cons.mp hk with h | h
            · exact List.mem_cons.mpr (Or.inl h)
            · exact List.mem_cons.mpr (Or.inr (ihrest h))
          · rw [if_neg hc1] at hk
            by_cases hc2 : (incs.any fun i => s2.contains i) = true
            · rw [if_pos hc2]
              exact List.mem_cons.mpr (Or.inr (ihrest hk))
            · rw [if_neg hc2]
              exact ihrest hk
      | none =>
          simp only [availableKeys] at hk ⊢
          rcases List.mem_cons.mp hk with h | h
          · exact List.mem_cons.mpr (Or.inl h)
          · exact List.mem_cons.mpr (Or.inr (ihrest h))
  | prim => intro k hk; simp [availableKeys] at hk
  | nev => intro k hk; simp [availableKeys] at hk
  | emptyArr => intro k hk; simp [availableKeys] at hk
  | arrOf e _ => intro k hk; simp [availableKeys] at hk
  | objNil => intro k hk; simp [availableKeys] at hk

/-- Enlarging the requested include set can only enlarge the set of field
paths present in the structural projection. -/
theorem proj_paths_mono {s1 s2 : List String}
    (hsub : ∀ x, s1.contains x = true → s2.contains x = true) :
    ∀ (t : Ty) {p : List String},
      p ∈ pathsOf (proj t s1) → p ∈ pathsOf (proj t s2) := by
  intro t
  induction t with
  | objCons n o sub d rest ihd ihrest =>
      intro p hp
      cases sub with
      | some incs =>
          by_cases hc1 : (incs.any fun i => s1.contains i) = true
          · have hc2 := any_contains_mono hsub incs hc1
            simp only [proj] at hp ⊢
            rw [if_pos hc1] at hp
            rw [if_pos hc2]
            simp only [pathsOf, List.mem_cons, List.mem_append,
              List.mem_map] at hp ⊢
            rcases hp with h | ⟨q, hq, rfl⟩ | h
            · exact Or.inl h
            · exact Or.inr (Or.inl ⟨q, ihd hq, rfl⟩)
            · exact Or.inr (Or.inr (ihrest h))
          · simp only [proj] at hp ⊢
            rw [if_neg hc1] at hp
            by_cases hc2 : (incs.any fun i => s2.contains i) = true
            · rw [if_pos hc2]
              simp only [pathsOf, List.mem_cons, List.mem_append,
                List.mem_map]
              exact Or.inr (Or.inr (ihrest hp))
            · rw [if_neg hc2]
              exact ihrest hp
      | none =>
          simp only [proj, pathsOf, List.mem_cons, List.mem_append,
            List.mem_map] at hp ⊢
          rcases hp with h | ⟨q, hq, rfl⟩ | h
          · exact Or.inl h
          · exact Or.inr (Or.inl ⟨q, ihd hq, rfl⟩)
          · exact Or.inr (Or.inr (ihrest h))
  | arrOf e ih =>
      intro p hp
      simp only [proj, pathsOf] at hp ⊢
      exact ih hp
  | prim => intro p hp; simp [proj, pathsOf] at hp
  | nev => intro p hp; simp [proj, pathsOf] at hp
  | emptyArr => intro p hp; simp [proj, pathsOf] at hp
  | objNil => intro p hp; simp [proj, pathsOf] at hp

/-- A field name occurs among the keys. -/
theorem mem_keysOf_of_mem_fieldsOf {n : String} {o : Bool}
    {s : Option (List String)} {d : Ty} :
    ∀ t : Ty, (n, o, s, d) ∈ fieldsOf t → n ∈ keysOf t := by
  intro t
  induction t with
  | objCons n1 o1 s1 d1 rest ihd ihrest =>
      intro hf
      rcases List.mem_cons.mp hf with h | h
      · rw [Prod.mk.injEq] at h
        simp [keysOf, h.1]
      · simp [keysOf, ihrest h]
  | prim => intro hf; simp [fieldsOf] at hf
  | nev => intro hf; simp [fieldsOf] at hf
  | emptyArr => intro hf; simp [fieldsOf] at hf
  | arrOf e _ => intro hf; simp [fieldsOf] at hf
  | objNil => intro hf; simp [fieldsOf] at hf

/-- Types have positive size. -/
theorem sizeOf_ty_pos (t : Ty) : 0 < sizeOf t := by
  cases t <;> simp_arith

/-- The entity inside a piece of data is not larger than the data. -/
theorem sizeOf_entityOf_le {d e : Ty} (h : entityOf d = some e) :
    sizeOf e ≤ sizeOf d := by
  cases d with
  | arrOf e1 =>
      by_cases ho : isObjB e1 = true
      · simp only [entityOf, ho, if_true, Option.some.injEq] at h
        subst h
        simp_arith
      · simp only [entityOf, ho, if_false] at h
        exact absurd h (by simp)
  | prim => simp [entityOf, isObjB] at h
  | nev => simp [entityOf, isObjB] at h
  | emptyArr => simp [entityOf, isObjB] at h
  | objNil =>
      simp only [entityOf, isObjB, if_true, Option.some.injEq] at h
      subst h
      exact le_rfl
  | objCons n o s d1 rest =>
      simp only [entityOf, isObjB, if_true, Option.some.injEq] at h
      subst h
      exact le_rfl

/-- `CollectSubQueryIncludes` collects exactly the includes of the entity
sitting inside the data, if any. -/
theorem csqi_eq_entityOf (d : Ty) :
    collectSubQueryIncludes d = (entityOf d).elim ∅ collectIncludes := by
  cases d with
  | arrOf e => cases e <;> simp [collectSubQueryIncludes, entityOf, isObjB]
  | objNil => simp [collectSubQueryIncludes, entityOf, isObjB]
  | objCons n o s d1 rest => simp [collectSubQueryIncludes, entityOf, isObjB]
  | prim => simp [collectSubQueryIncludes, entityOf, isObjB]
  | nev => simp [collectSubQueryIncludes, entityOf, isObjB]
  | emptyArr => simp [collectSubQueryIncludes, entityOf, isObjB]

/-- Fuel-indexed form of the collector correctness statement. -/
theorem collect_mem_aux :
    ∀ (N : ℕ) (t : Ty), sizeOf t ≤ N → ∀ x : String,
      (x ∈ collectIncludes t ↔ ∃ incs, SubReach t incs ∧ x ∈ incs) := by
  intro N
  induction N with
  | zero =>
      intro t ht
      exact absurd ht (by have := sizeOf_ty_pos t; omega)
  | succ N ih =>
      intro t ht x
      cases t with
      | objCons n o sub d rest =>
          have hsz : sizeOf d ≤ N ∧ sizeOf rest ≤ N := by
            simp_arith at ht
            omega
          obtain ⟨hdN, hrN⟩ := hsz
          cases sub with
          | some incs =>
              constructor
              · intro hx
                simp only [collectIncludes] at hx
                rw [Finset.mem_union, Finset.mem_union] at hx
                rcases hx with (hx | hx) | hx
                · exact ⟨incs, SubReach.here n o incs d rest,
                    List.mem_toFinset.mp hx⟩
                · rw [csqi_eq_entityOf] at hx
                  cases hent : entityOf d with
                  | none => rw [hent] at hx; simp at hx
                  | some e =>
                      rw [hent] at hx
                      simp only [Option.elim] at hx
                      have hse : sizeOf e ≤ N :=
                        le_trans (sizeOf_entityOf_le hent) hdN
                      obtain ⟨incs1, hr1, hx1⟩ := (ih e hse x).mp hx
                      exact ⟨incs1,
                        SubReach.into n o (some incs) rest hent hr1, hx1⟩
                · obtain ⟨incs1, hr1, hx1⟩ := (ih rest hrN x).mp hx
                  exact ⟨incs1, SubReach.there n o (some incs) d hr1, hx1⟩
              · rintro ⟨incs1, hr1, hx1⟩
                simp only [collectIncludes]
                rw [Finset.mem_union, Finset.mem_union]
                cases hr1 with
                | here => exact Or.inl (Or.inl (List.mem_toFinset.mpr hx1))
                | there _ _ _ _ h =>
                    exact Or.inr ((ih rest hrN x).mpr ⟨_, h, hx1⟩)
                | into _ _ _ _ hent h =>
                    refine Or.inl (Or.inr ?_)
                    rw [csqi_eq_entityOf, hent]
                    simp only [Option.elim]
                    have hse := le_trans (sizeOf_entityOf_le hent) hdN
                    exact (ih _ hse x).mpr ⟨_, h, hx1⟩
          | none =>
              constructor
              · intro hx
                simp only [collectIncludes] at hx
                rw [Finset.mem_union] at hx
                rcases hx with hx | hx
                · rw [csqi_eq_entityOf] at hx
                  cases hent : entityOf d with
                  | none => rw [hent] at hx; simp at hx
                  | some e =>
                      rw [hent] at hx
                      simp only [Option.elim] at hx
                      have hse : sizeOf e ≤ N :=
                        le_trans (sizeOf_entityOf_le hent) hdN
                      obtain ⟨incs1, hr1, hx1⟩ := (ih e hse x).mp hx
                      exact ⟨incs1, SubReach.into n o none rest hent hr1, hx1⟩
                · obtain ⟨incs1, hr1, hx1⟩ := (ih rest hrN x).mp hx
                  exact ⟨incs1, SubReach.there n o none d hr1, hx1⟩
              · rintro ⟨incs1, hr1, hx1⟩
                simp only [collectIncludes]
                rw [Finset.mem_union]
                cases hr1 with
                | there _ _ _ _ h =>
                    exact Or.inr ((ih rest hrN x).mpr ⟨_, h, hx1⟩)
                | into _ _ _ _ hent h =>
                    refine Or.inl ?_
                    rw [csqi_eq_entityOf, hent]
                    simp only [Option.elim]
                    have hse := le_trans (sizeOf_entityOf_le hent) hdN
                    exact (ih _ hse x).mpr ⟨_, h, hx1⟩
      | prim =>
          constructor
          · intro hx; simp [collectIncludes] at hx
          · rintro ⟨incs, hr, _⟩; cases hr
      | nev =>
          constructor
          · intro hx; simp [collectIncludes] at hx
          · rintro ⟨incs, hr, _⟩; cases hr
      | emptyArr =>
          constructor
          · intro hx; simp [collectIncludes] at hx
          · rintro ⟨incs, hr, _⟩; cases hr
      | arrOf e =>
          constructor
          · intro hx; simp [collectIncludes] at hx
          · rintro ⟨incs, hr, _⟩; cases hr
      | objNil =>
          constructor
          · intro hx; simp [collectIncludes] at hx
          · rintro ⟨incs, hr, _⟩; cases hr

/-- Decomposition of well-formedness at a field. -/
theorem wf_objCons_parts {n : String} {o : Bool} {s : Option (List String)}
    {d rest : Ty} (hw : wf (.objCons n o s d rest) = true) :
    wf d = true ∧ wf rest = true ∧ isObjB rest = true ∧ n ∉ keysOf rest := by
  have h : (wf d = true ∧ wf rest = true ∧ isObjB rest = true) ∧
      (keysOf rest).contains n = false := by
    simpa [wf, Bool.and_eq_true, Bool.not_eq_true', and_assoc] using hw
  refine ⟨h.1.1, h.1.2.1, h.1.2.2, fun hmem => ?_⟩
  have h2 := h.2
  rw [(contains_iff_mem _ _).mpr hmem] at h2
  exact Bool.true_eq_false.mp h2

section SanityChecks

example : wf releaseDemo = true := by decide
example : availableKeys releaseDemo ["artists"] = ["title", "artist-credit"] := by decide
example : availableKeys releaseDemo [] = ["title"] := by decide
example : withIncludes releaseDemo [] = .objCons "title" false none .prim .objNil := by
  simp [releaseDemo, withIncludes, unwrapProperties, unwrapData, availableKeys, pick]
example : collectIncludes releaseDemo = {"artists", "artist-credits"} := by
  simp [releaseDemo, collectIncludes, collectSubQueryIncludes]

end SanityChecks

/-- Claim C1: for every entity schema, `CollectIncludes` returns exactly
the set-union of the required includes of every sub-query field reachable
from the schema, both directly and through the payload types of sub-query
fields and through nested entity types inside always-present fields; the
result is a `Finset`, hence duplicate-free and independent of the traversal
order of the fields. -/
theorem c1_collector_completeness (t : Ty) (x : String) :
    x ∈ collectIncludes t ↔ ∃ incs, SubReach t incs ∧ x ∈ incs :=
  collect_mem_aux (sizeOf t) t le_rfl x

/-- Claim C2: projecting an entity schema with the empty requested include
set retains exactly the always-present fields and drops every sub-query
field, at every nesting depth: `WithIncludes` with no includes equals the
spec-side `stripAll`, and the available keys are exactly the always keys. -/
theorem c2_projection_empty (t : Ty) (hw : wf t = true)
    (hobj : isObjB t = true) :
    withIncludes t [] = stripAll t ∧ availableKeys t [] = alwaysKeysOf t := by
  refine ⟨?_, availableKeys_nil t⟩
  rw [(withIncludes_eq_proj t [] hw).1 hobj, proj_nil_eq_stripAll]

/-- Witness for claim C2 at a concrete schema. -/
theorem c2_projection_empty_witness :
    wf releaseDemo = true ∧ isObjB releaseDemo = true ∧
      (withIncludes releaseDemo [] = stripAll releaseDemo ∧
        availableKeys releaseDemo [] = alwaysKeysOf releaseDemo) :=
  ⟨by decide, by decide, c2_projection_empty releaseDemo (by decide) (by decide)⟩

/-- Claim C3: if one requested include set is contained in another, then
every key available under the smaller set is available under the larger
one, and every field path present in the projection under the smaller set
is present in the projection under the larger set: adding includes never
removes a field, at any nesting depth. -/
theorem c3_projection_monotone (t : Ty) (s1 s2 : List String)
    (hw : wf t = true) (hobj : isObjB t = true)
    (hsub : ∀ x, s1.contains x = true → s2.contains x = true) :
    (∀ k ∈ availableKeys t s1, k ∈ availableKeys t s2) ∧
      ∀ p ∈ pathsOf (withIncludes t s1), p ∈ pathsOf (withIncludes t s2) := by
  constructor
  · intro k hk
    exact availableKeys_mono hsub t hk
  · rw [(withIncludes_eq_proj t s1 hw).1 hobj,
      (withIncludes_eq_proj t s2 hw).1 hobj]
    intro p hp
    exact proj_paths_mono hsub t hp

/-- Witness for claim C3 at a concrete schema and include sets. -/
theorem c3_projection_monotone_witness :
    (∀ k ∈ availableKeys releaseDemo ["artists"],
        k ∈ availableKeys releaseDemo ["artists", "aliases"]) ∧
      ∀ p ∈ pathsOf (withIncludes releaseDemo ["artists"]),
        p ∈ pathsOf (withIncludes releaseDemo ["artists", "aliases"]) :=
  c3_projection_monotone releaseDemo ["artists"] ["artists", "aliases"]
    (by decide) (by decide) (by intro x h; simp at h; simp [h])

/-- Claim C4: a sub-query field whose required includes are the union of
two parameters is retained exactly when the requested set contains either
of the two (so requesting one, the other or both all retain it, while the
empty set or a set with neither member drops it), and the field key is
never duplicated among the available keys. -/
theorem c4_union_condition (t : Ty) (s : List String) (n : String) (o : Bool)
    (a b : String) (d : Ty) (hw : wf t = true)
    (hf : (n, o, some [a, b], d) ∈ fieldsOf t) :
    (n ∈ availableKeys t s ↔ (a ∈ s ∨ b ∈ s)) ∧
      (availableKeys t s).count n ≤ 1 := by
  revert hw hf
  induction t with
  | objCons n1 o1 s1 d1 rest ihd ihrest =>
      intro hw hf
      obtain ⟨hwd, hwrest, hobjrest, hnmem⟩ := wf_objCons_parts hw
      rcases List.mem_cons.mp hf with hhead | htail
      · rw [Prod.mk.injEq, Prod.mk.injEq, Prod.mk.injEq] at hhead
        obtain ⟨h1, h2, h3, h4⟩ := hhead
        subst h1
        subst h3
        have hnav : n ∉ availableKeys rest s := fun hmem =>
          hnmem (mem_keysOf_of_mem_availableKeys rest s hmem)
        simp only [availableKeys]
        by_cases hab : ([a, b].any fun i => s.contains i) = true
        · rw [if_pos hab]
          constructor
          · constructor
            · intro _
              rw [List.any_eq_true] at hab
              obtain ⟨i, hi, hci⟩ := hab
              rcases List.mem_cons.mp hi with rfl | hi
              · exact Or.inl ((contains_iff_mem _ _).mp hci)
              · rcases List.mem_singleton.mp hi with rfl
                exact Or.inr ((contains_iff_mem _ _).mp hci)
            · intro _
              exact List.mem_cons_self n _
          · rw [List.count_cons_self, List.count_eq_zero.mpr hnav]
        · rw [if_neg hab]
          constructor
          · constructor
            · intro hmem
              exact absurd hmem hnav
            · intro hor
              exfalso
              apply hab
              rw [List.any_eq_true]
              rcases hor with h | h
              · exact ⟨a, by simp, (contains_iff_mem _ _).mpr h⟩
              · exact ⟨b, by simp, (contains_iff_mem _ _).mpr h⟩
          · rw [List.count_eq_zero.mpr hnav]
            omega
      · have hnkeys : n ∈ keysOf rest := mem_keysOf_of_mem_fieldsOf rest htail
        have hne : n ≠ n1 := fun he => hnmem (he ▸ hnkeys)
        have ihr := ihrest hwrest htail
        cases s1 with
        | some incs1 =>
            simp only [availableKeys]
            by_cases hc : (incs1.any fun i => s.contains i) = true
            · rw [if_pos hc]
              constructor
              · rw [List.mem_cons]
                constructor
                · intro hor
                  rcases hor with h | h
                  · exact absurd h hne
                  · exact ihr.1.mp h
                · intro hor
                  exact Or.inr (ihr.1.mpr hor)
              · rw [List.count_cons_of_ne hne]
                exact ihr.2
            · rw [if_neg hc]
              exact ihr
        | none =>
            simp only [availableKeys]
            constructor
            · rw [List.mem_cons]
              constructor
              · intro hor
                rcases hor with h | h
                · exact absurd h hne
                · exact ihr.1.mp h
              · intro hor
                exact Or.inr (ihr.1.mpr hor)
            · rw [List.count_cons_of_ne hne]
              exact ihr.2
  | prim => intro hw hf; simp [fieldsOf] at hf
  | nev => intro hw hf; simp [fieldsOf] at hf
  | emptyArr => intro hw hf; simp [fieldsOf] at hf
  | arrOf e _ => intro hw hf; simp [fieldsOf] at hf
  | objNil => intro hw hf; simp [fieldsOf] at hf

/-- Witness for claim C4: the artist-credit field of the demo release
schema, gated by the union of the two includes "artists" and
"artist-credits", under the five requested sets of the claim. -/
theorem c4_union_condition_witness :
    (("artist-credit" ∈ availableKeys releaseDemo ["artists"] ↔
        ("artists" ∈ ["artists"] ∨ "artist-credits" ∈ ["artists"])) ∧
      (availableKeys releaseDemo ["artists"]).count "artist-credit" ≤ 1) ∧
    (("artist-credit" ∈ availableKeys releaseDemo ["artist-credits"] ↔
        ("artists" ∈ ["artist-credits"] ∨
          "artist-credits" ∈ ["artist-credits"])) ∧
      (availableKeys releaseDemo ["artist-credits"]).count "artist-credit" ≤ 1) ∧
    (("artist-credit" ∈ availableKeys releaseDemo ["artists", "artist-credits"] ↔
        ("artists" ∈ ["artists", "artist-credits"] ∨
          "artist-credits" ∈ ["artists", "artist-credits"])) ∧
      (availableKeys releaseDemo ["artists", "artist-credits"]).count
          "artist-credit" ≤ 1) ∧
    (("artist-credit" ∈ availableKeys releaseDemo [] ↔
        ("artists" ∈ ([] : List String) ∨
          "artist-credits" ∈ ([] : List String))) ∧
      (availableKeys releaseDemo []).count "artist-credit" ≤ 1) ∧
    (("artist-credit" ∈ availableKeys releaseDemo ["labels"] ↔
        ("artists" ∈ ["labels"] ∨ "artist-credits" ∈ ["labels"])) ∧
      (availableKeys releaseDemo ["labels"]).count "artist-credit" ≤ 1) :=
  ⟨c4_union_condition releaseDemo ["artists"] "artist-credit" false
      "artists" "artist-credits" (.arrOf (.objCons "name" false none .prim .objNil))
      (by decide) (by decide),
    c4_union_condition releaseDemo ["artist-credits"] "artist-credit" false
      "artists" "artist-credits" (.arrOf (.objCons "name" false none .prim .objNil))
      (by decide) (by decide),
    c4_union_condition releaseDemo ["artists", "artist-credits"]
      "artist-credit" false "artists" "artist-credits" (.arrOf (.objCons "name" false none .prim .objNil))
      (by decide) (by decide),
    c4_union_condition releaseDemo [] "artist-credit" false
      "artists" "artist-credits" (.arrOf (.objCons "name" false none .prim .objNil))
      (by decide) (by decide),
    c4_union_condition releaseDemo ["labels"] "artist-credit" false
      "artists" "artist-credits" (.arrOf (.objCons "name" false none .prim .objNil))
      (by decide) (by decide)⟩

/-- Claim C5: after the dispatcher processes a response whose
remaining-quota header is "0" and whose reset header parses to an instant
strictly in the future, the shared deadline becomes exactly that instant
and no subsequently dispatched request begins before it; after a response
with no remaining-quota header, the deadline becomes one second after
processing, so the next request begins at least one second later. -/
theorem c5_rate_limit_deadline (now readyAt : Int) (reset : String)
    (tv : Int) (hparse : parseIntJS reset = some tv)
    (hfut : tv * 1000 > now) :
    (updateRateLimit now readyAt (some "0") (some reset) = tv * 1000 ∧
      ∀ requestedAt : Int,
        tv * 1000 ≤
          beginTime requestedAt
            (updateRateLimit now readyAt (some "0") (some reset))) ∧
    (updateRateLimit now readyAt none none = now + 1000 ∧
      ∀ requestedAt : Int,
        now + 1000 ≤
          beginTime requestedAt (updateRateLimit now readyAt none none)) := by
  have hre : reset ≠ "" := by
    intro h
    have h0 : parseIntJS "" = none := rfl
    rw [h, h0] at hparse
    exact Option.noConfusion hparse
  have h0 : parseIntJS "0" = some 0 := rfl
  have hd : tv * 1000 - now > 0 := by omega
  have hupd : updateRateLimit now readyAt (some "0") (some reset) =
      tv * 1000 := by
    simp only [updateRateLimit, h0, hparse]
    simp [hre, hd]
  have hupd2 : updateRateLimit now readyAt none none = now + 1000 := by
    simp [updateRateLimit]
  refine ⟨⟨hupd, ?_⟩, hupd2, ?_⟩
  · intro requestedAt
    rw [hupd]
    exact le_max_right _ _
  · intro requestedAt
    rw [hupd2]
    exact le_max_right _ _

/-- Witness for claim C5: reset 10 seconds in the future of instant 0. -/
theorem c5_rate_limit_deadline_witness :
    updateRateLimit 0 0 (some "0") (some "10") = 10000 ∧
    (10000 : Int) ≤ beginTime 5000 (updateRateLimit 0 0 (some "0") (some "10")) ∧
    updateRateLimit 0 0 none none = 1000 ∧
    (1000 : Int) ≤ beginTime 300 (updateRateLimit 0 0 none none) := by
  have h := c5_rate_limit_deadline 0 0 "10" 10 rfl (by decide)
  exact ⟨h.1.1, h.1.2 5000, h.2.1, h.2.2 300⟩

/-- Claim C6: with maximum queue size 2 and two admitted requests not yet
completed, a third caller is rejected synchronously with the distinct
queue-full error: its event trace is only the rejection, with no waiting
and no fetch, and the state is unchanged; callers arriving at queue sizes
0 and 1 are not rejected and do reach the fetch. -/
theorem c6_queue_cap (now r : Int) (outcome : FetchOutcome) :
    requestStep ⟨2, r, some 2⟩ now outcome =
      ([.rejected rateLimitErrorMessage], ⟨2, r, some 2⟩) ∧
    (∀ m, ReqEvent.rejected m ∉ (requestStep ⟨0, r, some 2⟩ now outcome).1) ∧
    ReqEvent.fetchStarted ∈ (requestStep ⟨0, r, some 2⟩ now outcome).1 ∧
    (∀ m, ReqEvent.rejected m ∉ (requestStep ⟨1, r, some 2⟩ now outcome).1) ∧
    ReqEvent.fetchStarted ∈ (requestStep ⟨1, r, some 2⟩ now outcome).1 := by
  cases outcome <;> simp [requestStep, queueFull]

/-- Claim C9 (documenting the divergence): the queued-requests counter is
decremented only on the path where the fetch resolves; the source has no
try/finally, so after a single request whose fetch rejects the counter is
1 instead of 0, and with maximum queue size 1 every subsequent caller is
rejected as queue-full although no request is in flight.  On the
successful path the counter does return to its previous value. -/
theorem c9_counter_leak_on_fetch_failure :
    (requestStep ⟨0, 0, some 1⟩ 0 .fail).2.queuedRequests = 1 ∧
    (∀ outcome2,
      requestStep (requestStep ⟨0, 0, some 1⟩ 0 .fail).2 0 outcome2 =
        ([.rejected rateLimitErrorMessage],
          (requestStep ⟨0, 0, some 1⟩ 0 .fail).2)) ∧
    (∀ remaining reset,
      (requestStep ⟨0, 0, some 1⟩ 0 (.ok remaining reset)).2.queuedRequests
        = 0) := by
  refine ⟨rfl, ?_, ?_⟩
  · intro o2
    cases o2 <;> simp [requestStep, queueFull]
  · intro remaining reset
    simp [requestStep, queueFull]

/-- Claim C7: the lookup operations validate the identifier synchronously,
before a request exists: a request is prepared iff the identifier passes
the UUID-shape validation; "not-a-uuid" is rejected with the
invalid-identifier error and no request, and the sample MBID passes. -/
theorem c7_mbid_validation :
    (∀ et mbid inc status typ,
      (∃ req, lookup et mbid inc status typ = .ok req) ↔
        validate mbid = true) ∧
    validate "not-a-uuid" = false ∧
    validate "94ed318a-fd7d-4abc-8491-a35e39f51dca" = true ∧
    (∀ et inc status typ,
      lookup et "not-a-uuid" inc status typ =
        .error "not-a-uuid is not a valid MBID") ∧
    (∀ ct, lookupCollectionContents "not-a-uuid" ct =
      .error "not-a-uuid is not a valid MBID") ∧
    (∀ ct, ∃ req,
      lookupCollectionContents "94ed318a-fd7d-4abc-8491-a35e39f51dca" ct =
        .ok req) := by
  refine ⟨?_, by decide, by decide, ?_, ?_, ?_⟩
  · intro et mbid inc status typ
    by_cases hv : validate mbid = true
    · simp [lookup, assertMbid, hv]
    · simp [lookup, assertMbid, hv]
  · intro et inc status typ
    rfl
  · intro ct
    rfl
  · intro ct
    exact ⟨_, rfl⟩

/-- Claim C8: a response body decoding to an object with a string error
field yields an API error carrying the server message and the HTTP status
of the response, with 500 as the default when the transport provides none,
and is not returned as entity data; a body without the error shape is
returned as data. -/
theorem c8_error_body :
    getResult (.obj [("error", .str "Not Found")]) (some 404) =
      .error { message := "Not Found", status := 404 } ∧
    getResult (.obj [("error", .str "Not Found")]) none =
      .error { message := "Not Found", status := 500 } ∧
    (∀ fields m status, List.lookup "error" fields = some (.str m) →
      getResult (.obj fields) status =
        .error { message := m, status := status.getD 500 }) ∧
    (∀ body status, isError body = false →
      getResult body status = .ok body) := by
  refine ⟨rfl, rfl, ?_, ?_⟩
  · intro fields m status h
    simp [getResult, isError, errorMessage, mkApiError, h]
  · intro body status h
    simp [getResult, h]

/-- Witness for claim C8 at a further concrete body and status. -/
theorem c8_error_body_witness :
    getResult (.obj [("error", .str "Boom")]) (some 503) =
      .error { message := "Boom", status := 503 } ∧
    getResult (.str "data") (some 200) = .ok (.str "data") :=
  ⟨c8_error_body.2.2.1 [("error", .str "Boom")] "Boom" (some 503) rfl,
    c8_error_body.2.2.2 (.str "data") (some 200) rfl⟩

/-- Claim C10: `entityPlural` appends "s" to every entity type except
"series", which stays unchanged, and `lookupCollectionContents` builds its
endpoint path as collection, MBID and pluralized content type joined by
slashes, using exactly this rule. -/
theorem c10_entity_plural :
    entityTypes.map entityPlural =
      ["areas", "artists", "collections", "events", "genres", "instruments",
        "labels", "places", "recordings", "releases", "release-groups",
        "series", "urls", "works"] ∧
    (∀ ct mbid, validate mbid = true →
      lookupCollectionContents mbid ct =
        .ok { endpoint := "collection/" ++ mbid ++ "/" ++ entityPlural ct
              inc := none
              status := none
              typ := none }) := by
  constructor
  · rfl
  · intro ct mbid hv
    have hstr : joinArr "/" ["collection", mbid, entityPlural ct] =
        "collection/" ++ mbid ++ "/" ++ entityPlural ct := by
      apply String.ext
      simp [joinArr, String.data_append, List.append_assoc]
    simp [lookupCollectionContents, assertMbid, hv, hstr]

/-- Witness for claim C10 at the sample MBID and a collectable type. -/
theorem c10_entity_plural_witness :
    lookupCollectionContents "94ed318a-fd7d-4abc-8491-a35e39f51dca"
        "release-group" =
      .ok { endpoint :=
              "collection/94ed318a-fd7d-4abc-8491-a35e39f51dca/release-groups"
            inc := none
            status := none
            typ := none } :=
  c10_entity_plural.2 "release-group" "94ed318a-fd7d-4abc-8491-a35e39f51dca"
    (by decide)

end MB
